import Mathlib

/-
  Verification of the Impala query coordinator (be/src/runtime/coordinator.cc).

  The definitions below are a shallow embedding of the coordinator's data model
  and operations.  Mutable C++ state becomes explicit state passing; fallible
  operations return `Option` (with `none` marking paths that dereference
  invalid pointers or iterators in the source); `DCHECK` assertions compile to
  nothing in release builds and are embedded as no-ops unless noted otherwise.
  External collaborators (the RPC transport, the distributed filesystem, the
  cluster scheduler) are passed in as explicit oracle values.
-/

set_option autoImplicit false

namespace Impala

/-! ## Basic thrift-level data model -/

/-- Execution status, mirroring `impala::Status`: OK, the distinguished
CANCELLED status, or an error carrying a message. -/
inductive Status where
  | ok
  | cancelled
  | error (msg : String)
deriving DecidableEq

/-- `Status::ok()`. -/
def Status.isOk : Status → Bool
  | .ok => true
  | _ => false

/-- `THostPort`: hostname, ip address and port of a backend. -/
structure THostPort where
  hostname : String
  ipaddress : String
  port : Int
deriving DecidableEq

/-- 128-bit `TUniqueId`, as two 64-bit halves.  The halves are modelled as
unbounded integers; the source's overflow `DCHECK` is embedded explicitly
where instance ids are assigned. -/
structure TUniqueId where
  hi : Int
  lo : Int
deriving DecidableEq

/-- `numeric_limits<int64_t>::max()`. -/
def int64Max : Int := 9223372036854775807

/-! ## Plan topology (Coordinator::FindLeftmostNode) -/

/-- The closed set of plan-node types the coordinator dispatches on. -/
inductive TPlanNodeType where
  | hdfsScanNode
  | hbaseScanNode
  | exchangeNode
  | other (tag : Nat)
deriving DecidableEq

/-- One entry of the flattened preorder `TPlan::nodes` array. -/
structure TPlanNode where
  nodeId : Int
  nodeType : TPlanNodeType
  numChildren : Nat
deriving DecidableEq

/-- `g_JavaConstants_constants.INVALID_PLAN_NODE_ID`. -/
def invalidPlanNodeId : Int := -1

/-- `Coordinator::FindLeftmostNode`: walk the flattened preorder node array to
the first node with `num_children == 0`; return its id if its type is among
`types`, else the INVALID sentinel.  The source's index-based while loop is
written as structural recursion over the node array. -/
def FindLeftmostNode (nodes : List TPlanNode) (types : List TPlanNodeType) : Int :=
  match nodes with
  | [] => invalidPlanNodeId
  | n :: rest =>
    if n.numChildren ≠ 0 then FindLeftmostNode rest types
    else if n.nodeType ∈ types then n.nodeId else invalidPlanNodeId

/-- Claim C8: for every plan (a flattened preorder array of nodes each carrying
`num_children`) and every type list, `FindLeftmostNode` returns the node id of
the first node with `num_children == 0` iff that node's type is in the given
type list, and the INVALID sentinel otherwise (including when no leaf exists). -/
theorem FindLeftmostNode_spec (nodes : List TPlanNode) (types : List TPlanNodeType) :
    (∀ n, nodes.find? (fun m => m.numChildren == 0) = some n →
      FindLeftmostNode nodes types =
        if n.nodeType ∈ types then n.nodeId else invalidPlanNodeId)
    ∧ (nodes.find? (fun m => m.numChildren == 0) = none →
      FindLeftmostNode nodes types = invalidPlanNodeId) := by
  induction nodes with
  | nil => exact ⟨fun n h => by simp [List.find?] at h, fun _ => rfl⟩
  | cons hd tl ih =>
    by_cases hc : hd.numChildren = 0
    · refine ⟨fun n h => ?_, fun h => ?_⟩
      · rw [List.find?_cons_of_pos _ (by simp [hc])] at h
        cases h
        simp [FindLeftmostNode, hc]
      · rw [List.find?_cons_of_pos _ (by simp [hc])] at h
        cases h
    · refine ⟨fun n h => ?_, fun h => ?_⟩
      · rw [List.find?_cons_of_neg _ (by simp [hc])] at h
        simpa [FindLeftmostNode, hc] using ih.1 n h
      · rw [List.find?_cons_of_neg _ (by simp [hc])] at h
        simpa [FindLeftmostNode, hc] using ih.2 h

/-- Concrete instantiation of `FindLeftmostNode_spec`: a three-node plan whose
leftmost leaf (first node with zero children) is an HDFS scan with id 7, and an
empty plan with no leaf at all. -/
theorem FindLeftmostNode_spec_witness :
    FindLeftmostNode
      [⟨3, .other 0, 2⟩, ⟨7, .hdfsScanNode, 0⟩, ⟨9, .exchangeNode, 0⟩]
      [.hdfsScanNode, .hbaseScanNode] = 7
    ∧ FindLeftmostNode [] [.hdfsScanNode] = invalidPlanNodeId := by
  constructor
  · have h := (FindLeftmostNode_spec
      [⟨3, .other 0, 2⟩, ⟨7, .hdfsScanNode, 0⟩, ⟨9, .exchangeNode, 0⟩]
      [.hdfsScanNode, .hbaseScanNode]).1 ⟨7, .hdfsScanNode, 0⟩ rfl
    rw [h, if_pos (by decide)]
  · exact (FindLeftmostNode_spec [] [.hdfsScanNode]).2 rfl

/-! ## Backend execution state and coordinator state

`Coordinator::BackendExecState` holds the per-instance mutable fields guarded
by its own lock; the coordinator holds the query-wide fields guarded by
`lock_`.  Lock acquisition itself is not modelled; each operation below is one
atomic application of the source's critical sections in program order. -/

/-- Mutable fields of `Coordinator::BackendExecState`.  `cancelRpcSent` is
instrumentation counting how many `CancelPlanFragment` RPCs were issued for
this instance (the source sends the RPC inline in `CancelInternal`). -/
structure InstState where
  status : Status
  initiated : Bool
  done : Bool
  profileCreated : Bool
  errorLog : List String
  cancelRpcSent : Nat
deriving DecidableEq

/-- A freshly constructed `BackendExecState` (constructor initializer list). -/
def freshInst : InstState :=
  { status := .ok, initiated := false, done := false,
    profileCreated := false, errorLog := [], cancelRpcSent := 0 }

/-- Query-wide mutable coordinator state (fields guarded by `lock_` and
`wait_lock_`).  `workRuns` counts executions of `Wait`'s blocking phase
(`executor_->Open()` / `WaitForAllBackends`) and `finalizeRuns` counts
executions of `FinalizeQuery`, to express that repeated calls do not redo
work. -/
structure CoordState where
  queryStatus : Status
  insts : List InstState
  numRemaining : Nat
  hasCalledWait : Bool
  hasExecutor : Bool
  needsFinalization : Bool
  workRuns : Nat
  finalizeRuns : Nat
deriving DecidableEq

/-- The per-instance body of `Coordinator::CancelInternal`'s loop: skip if the
instance already has a non-OK status; otherwise mark it CANCELLED, and send a
`CancelPlanFragment` RPC only if the exec RPC was sent (`initiated`) and the
instance has not already finished (`done`).  RPC and client failures in the
source only append to the instance's error status and never abort the fan-out,
so they are not distinguished here. -/
def cancelInstance (st : InstState) : InstState :=
  if st.status.isOk then
    let st2 : InstState := { st with status := .cancelled }
    if st2.initiated = false then st2
    else if st2.done then st2
    else { st2 with cancelRpcSent := st2.cancelRpcSent + 1 }
  else st

/-- `Coordinator::CancelInternal` (query lock held, `query_status_` already
non-OK): cancel each backend exec state in turn, then signal the completion
condition variable and report the query summary (the latter two do not change
the modelled state). -/
def CancelInternal (s : CoordState) : CoordState :=
  { s with insts := s.insts.map cancelInstance }

/-- `Coordinator::Cancel`: under the query lock, return if the query status is
already non-OK; otherwise set it to CANCELLED and run the internal path. -/
def Cancel (s : CoordState) : CoordState :=
  if s.queryStatus.isOk then
    CancelInternal { s with queryStatus := .cancelled }
  else s

/-- `Coordinator::UpdateStatus`: if the incoming status is OK, or the query
status is already non-OK, leave the state alone and return the current query
status; otherwise record the incoming status as the query status, initiate
cancellation, and return it. -/
def UpdateStatus (s : CoordState) (st : Status) : CoordState × Status :=
  if st.isOk then (s, s.queryStatus)
  else if s.queryStatus.isOk = false then (s, s.queryStatus)
  else (CancelInternal { s with queryStatus := st }, st)

/-- Claim C5: `Cancel` is idempotent.  Repeated calls equal a single call;
a call on a state whose query status is already non-OK (here: CANCELLED) is
the identity, so only the first call runs the internal cancellation path; and
one pass of the per-instance cancel body sends exactly one cancel RPC to an
instance iff it is still OK, initiated, and not done — so any sequence of
`Cancel` calls sends at most one cancel RPC per initiated, not-yet-done
instance. -/
theorem Cancel_idempotent (s : CoordState) (st : InstState) :
    Cancel (Cancel (Cancel s)) = Cancel s
    ∧ Cancel { s with queryStatus := .cancelled } = { s with queryStatus := .cancelled }
    ∧ (cancelInstance st).cancelRpcSent = st.cancelRpcSent +
        (if st.status.isOk = true ∧ st.initiated = true ∧ st.done = false then 1 else 0) := by
  have cancel_of_not_ok : ∀ t : CoordState, t.queryStatus.isOk = false → Cancel t = t := by
    intro t ht
    rw [Cancel, if_neg (by rw [ht]; exact Bool.false_ne_true)]
  refine ⟨?_, ?_, ?_⟩
  · by_cases h : s.queryStatus.isOk = true
    · have h2 : (Cancel s).queryStatus = Status.cancelled := by
        rw [Cancel, if_pos h]
        rfl
      have h4 : (Cancel s).queryStatus.isOk = false := by rw [h2]; rfl
      rw [cancel_of_not_ok _ h4, cancel_of_not_ok _ h4]
    · have h1 : Cancel s = s := cancel_of_not_ok s (by simpa using h)
      rw [h1, h1, h1]
  · exact cancel_of_not_ok { s with queryStatus := .cancelled } rfl
  · rcases st with ⟨stat, init, dn, pc, el, n⟩
    cases stat <;> cases init <;> cases dn <;>
      simp [cancelInstance, Status.isOk]

/-! ## Status reports (Coordinator::UpdateFragmentExecStatus) -/

/-- The fields of `TReportExecStatusParams` that reach the modelled state. -/
structure TReportExecStatusParams where
  backendNum : Nat
  status : Status
  done : Bool
  errorLog : List String
deriving DecidableEq

/-- `Coordinator::UpdateFragmentExecStatus`: reject an unknown backend number;
otherwise, under the instance lock, store the reported status and `done` flag
(the `DCHECK` forbidding an error-to-OK transition compiles to nothing in
release builds and is embedded as a no-op), mark the profile created, and
append new error-log lines.  Then, if the report carries an error, route it
through `UpdateStatus`; else if `done`, decrement `num_remaining_backends_`.
Profile trees, scan-node counters and insert telemetry are not modelled. -/
def UpdateFragmentExecStatus (s : CoordState) (params : TReportExecStatusParams) :
    CoordState × Status :=
  match s.insts[params.backendNum]? with
  | none => (s, .error "unknown backend number")
  | some st =>
    -- DCHECK(!status.ok() || exec_state->status.ok()) elided (release build)
    let st2 : InstState :=
      { st with
          status := params.status, done := params.done, profileCreated := true,
          errorLog := st.errorLog ++ params.errorLog }
    let s2 : CoordState := { s with insts := s.insts.set params.backendNum st2 }
    if params.status.isOk = false then
      ((UpdateStatus s2 params.status).1, .ok)
    else if params.done then
      ({ s2 with numRemaining := s2.numRemaining - 1 }, .ok)
    else (s2, .ok)

/-- Claim C1 (code bug): a backend exec state whose status is already non-OK
(here CANCELLED, set by `CancelInternal` while the remote fragment was still
running) is overwritten back to OK by a later status report carrying an OK
status: `UpdateFragmentExecStatus` assigns `exec_state->status = status`
unconditionally, and the guarding `DCHECK` both compiles to nothing in release
builds and is reachable (a worker can report OK before its cancel RPC lands),
contradicting the code's own assertion. -/
theorem UpdateFragmentExecStatus_overwrites_error_with_ok :
    let s : CoordState :=
      { queryStatus := .cancelled,
        insts := [{ status := .cancelled, initiated := true, done := false,
                    profileCreated := true, errorLog := [], cancelRpcSent := 1 }],
        numRemaining := 1, hasCalledWait := false, hasExecutor := true,
        needsFinalization := false, workRuns := 0, finalizeRuns := 0 }
    let params : TReportExecStatusParams :=
      { backendNum := 0, status := .ok, done := false, errorLog := [] }
    (s.insts[0]?.map InstState.status = some Status.cancelled)
    ∧ ((UpdateFragmentExecStatus s params).1.insts[0]?.map InstState.status
        = some Status.ok) := by
  exact ⟨rfl, by decide⟩

/-! ## Wait (Coordinator::Wait, WaitForAllBackends) -/

/-- Results of the external operations `Wait` may perform: the local
executor's `Open()` and the filesystem finalization. -/
structure WaitEnv where
  openResult : Status
  finalizeResult : Status

/-- The tail of `Coordinator::Wait`: run `FinalizeQuery` only for queries with
an HDFS table sink. -/
def finalizeStep (env : WaitEnv) (s : CoordState) : CoordState × Status :=
  if s.needsFinalization then
    ({ s with finalizeRuns := s.finalizeRuns + 1 }, env.finalizeResult)
  else (s, .ok)

/-- `Coordinator::Wait`: under `wait_lock_`, return OK immediately if `Wait`
already ran; otherwise set `has_called_wait_` first, then run the blocking
phase — `executor_->Open()` routed through `UpdateStatus` when there is a
local coordinator fragment, else `WaitForAllBackends` (which returns the
query status once all backends reported or the query failed) — and finally
finalization if required. -/
def coordWait (env : WaitEnv) (s : CoordState) : CoordState × Status :=
  if s.hasCalledWait then (s, .ok)
  else
    let s1 : CoordState := { s with hasCalledWait := true, workRuns := s.workRuns + 1 }
    if s1.hasExecutor then
      let r := UpdateStatus s1 env.openResult
      if r.2.isOk = false then r
      else finalizeStep env r.1
    else
      if s1.queryStatus.isOk = false then (s1, s1.queryStatus)
      else finalizeStep env s1

theorem UpdateStatus_hasCalledWait (s : CoordState) (st : Status) :
    (UpdateStatus s st).1.hasCalledWait = s.hasCalledWait := by
  rw [UpdateStatus]
  split
  · rfl
  · split
    · rfl
    · rfl

theorem UpdateStatus_workRuns (s : CoordState) (st : Status) :
    (UpdateStatus s st).1.workRuns = s.workRuns := by
  rw [UpdateStatus]
  split
  · rfl
  · split
    · rfl
    · rfl

theorem finalizeStep_hasCalledWait (env : WaitEnv) (s : CoordState) :
    (finalizeStep env s).1.hasCalledWait = s.hasCalledWait := by
  rw [finalizeStep]
  split
  · rfl
  · rfl

theorem finalizeStep_workRuns (env : WaitEnv) (s : CoordState) :
    (finalizeStep env s).1.workRuns = s.workRuns := by
  rw [finalizeStep]
  split
  · rfl
  · rfl

/-- Claim C6: `Wait` is idempotent.  After any first call `has_called_wait_`
is set; a second call (under any environment, whatever the first call
returned) returns OK and leaves the state — including the work and
finalization counters — untouched; and a first call on a state that has not
yet waited runs the blocking phase exactly once. -/
theorem Wait_idempotent (env env2 : WaitEnv) (s : CoordState) :
    ((coordWait env s).1.hasCalledWait = true)
    ∧ (coordWait env2 (coordWait env s).1 = ((coordWait env s).1, .ok))
    ∧ ((coordWait env { s with hasCalledWait := false }).1.workRuns = s.workRuns + 1) := by
  have h1 : (coordWait env s).1.hasCalledWait = true := by
    cases hb : s.hasCalledWait
    · simp only [coordWait, hb, Bool.false_eq_true, if_false]
      by_cases hex : s.hasExecutor <;>
        simp [hex] <;> split <;>
        simp [UpdateStatus_hasCalledWait, finalizeStep_hasCalledWait]
    · simp [coordWait, hb]
  have h2 : coordWait env2 (coordWait env s).1 = ((coordWait env s).1, .ok) := by
    rw [coordWait, if_pos (by rw [h1])]
  have h3 : (coordWait env { s with hasCalledWait := false }).1.workRuns = s.workRuns + 1 := by
    simp only [coordWait, Bool.false_eq_true, if_false]
    by_cases hex : s.hasExecutor <;>
      simp [hex] <;> split <;>
      simp [UpdateStatus_workRuns, finalizeStep_workRuns]
  exact ⟨h1, h2, h3⟩

/-! ## GetNext (Coordinator::GetNext) -/

/-- Results of the local executor's pull, for queries that have one:
the produced batch (`none` = end of stream) and its status. -/
structure GetNextEnv where
  executorBatch : Option Nat
  executorStatus : Status

/-- `Coordinator::GetNext`: with no local fragment (`executor_ == NULL`, the
parallel INSERT case), set the output batch to NULL and return `GetStatus()`
immediately — execution finished during `Wait`.  Otherwise pull from the local
executor, route its status through `UpdateStatus` (returning the query-wide
status on error), and on the final NULL batch wait for all backends before
returning. -/
def coordGetNext (env : GetNextEnv) (s : CoordState) : CoordState × Option Nat × Status :=
  if s.hasExecutor = false then
    (s, none, s.queryStatus)
  else
    let r := UpdateStatus s env.executorStatus
    if r.2.isOk = false then (r.1, env.executorBatch, r.2)
    else
      match env.executorBatch with
      | none =>
        -- WaitForAllBackends: returns the query status once all reported
        if r.1.queryStatus.isOk = false then (r.1, none, r.1.queryStatus)
        else (r.1, none, .ok)
      | some b => (r.1, some b, .ok)

/-- Claim C10: when the query has no local coordinator fragment, `GetNext`
sets the output batch to nil immediately, changes nothing, and returns the
query-wide status. -/
theorem GetNext_no_executor_returns_query_status (env : GetNextEnv) (s : CoordState) :
    coordGetNext env { s with hasExecutor := false } =
      ({ s with hasExecutor := false }, none, s.queryStatus) := by
  rw [coordGetNext, if_pos rfl]

/-! ## Dispatch (Coordinator::Exec, ExecRemoteFragment) -/

/-- Outcome of one `ExecPlanFragment` dispatch attempt, as seen through
`Coordinator::ExecRemoteFragment`'s retry logic:
a first transport failure followed by a failed client reopen (the instance's
own status is left untouched), a transport failure on both attempts, or a
delivered RPC whose result status the backend chose. -/
inductive DispatchOutcome where
  | reopenFail (msg : String)
  | transportErr (msg : String)
  | remote (st : Status)
deriving DecidableEq

/-- `Coordinator::ExecRemoteFragment` on one freshly constructed exec state:
returns the updated instance state and the status handed to the parallel
executor.  `initiated` is set (and the stopwatch started) only when the
backend accepted the fragment. -/
def ExecRemoteFragment (st : InstState) (d : DispatchOutcome) : InstState × Status :=
  match d with
  | .reopenFail msg => (st, .error msg)
  | .transportErr msg =>
    let st2 : InstState := { st with status := .error msg }
    (st2, st2.status)
  | .remote rs =>
    let st2 : InstState := { st with status := rs }
    if rs.isOk then ({ st2 with initiated := true }, rs) else (st2, rs)

/-- `ParallelExecutor::Exec` over one fragment's instances: every RPC is
issued (all exec states are updated), and the first error in instance order
is returned. -/
def dispatchFragment : List DispatchOutcome → List InstState × Status
  | [] => ([], .ok)
  | d :: rest =>
    let r := ExecRemoteFragment freshInst d
    let rr := dispatchFragment rest
    (r.1 :: rr.1, if r.2.isOk then rr.2 else r.2)

/-- Number of fragment instances (backends) a list of fragments carries. -/
def numInstances (fs : List (List DispatchOutcome)) : Nat :=
  (fs.map List.length).sum

/-- What `Coordinator::Exec`'s dispatch loop leaves behind: the returned
status, the query status, and the backend exec states. -/
structure ExecOutcome where
  ret : Status
  queryStatus : Status
  insts : List InstState
deriving DecidableEq

/-- The fragment-dispatch loop of `Coordinator::Exec`: for each fragment,
construct its backend exec states and dispatch all of its instances in
parallel; on the first failing fragment record the error as the query status,
run `CancelInternal`, and return the error.  `backend_exec_states_` was
resized to the full backend count up front, so when instances of later
fragments were never constructed `CancelInternal` dereferences the NULL
entries — modelled as `none`. -/
def coordExecLoop : List (List DispatchOutcome) → List InstState → Option ExecOutcome
  | [], acc => some ⟨.ok, .ok, acc⟩
  | f :: rest, acc =>
    let r := dispatchFragment f
    let acc2 := acc ++ r.1
    if r.2.isOk then coordExecLoop rest acc2
    else if numInstances rest = 0 then
      some ⟨r.2, r.2, acc2.map cancelInstance⟩
    else none

/-- `Coordinator::Exec`, from the start of remote dispatch (query lock held,
no exec states constructed yet). -/
def coordExec (fs : List (List DispatchOutcome)) : Option ExecOutcome :=
  coordExecLoop fs []

/-- The spec scenario: five remote instances in two fragments (2 + 3); the
third `ExecPlanFragment` RPC hits a transport error, the rest succeed. -/
def demoDispatch : List (List DispatchOutcome) :=
  [[.remote .ok, .remote .ok],
   [.transportErr "ExecPlanRequest rpc failed", .remote .ok, .remote .ok]]

/-- Claim C2 counterexample: when the 3rd of 5 `ExecPlanFragment` RPCs fails,
`Exec` does return that first dispatch error, but `query_status_` is set to
that same error status — not to CANCELLED as the claim states (the code runs
`query_status_ = fragments_exec_status` before `CancelInternal`). -/
theorem Exec_dispatch_error_query_status_not_cancelled :
    ((coordExec demoDispatch).map ExecOutcome.ret
      = some (.error "ExecPlanRequest rpc failed"))
    ∧ ((coordExec demoDispatch).map ExecOutcome.queryStatus
      = some (.error "ExecPlanRequest rpc failed"))
    ∧ (Status.error "ExecPlanRequest rpc failed" ≠ Status.cancelled) := by
  exact ⟨rfl, rfl, by decide⟩

/-- Shape of a backend exec state right after its dispatch attempt: not done,
no cancel RPC sent yet, and initiated only with an OK status. -/
def dispatched (st : InstState) : Prop :=
  st.done = false ∧ st.cancelRpcSent = 0 ∧ (st.initiated = true → st.status = .ok)

theorem Status.isOk_eq_true {s : Status} : s.isOk = true ↔ s = .ok := by
  cases s <;> simp [Status.isOk]

theorem dispatchFragment_dispatched (f : List DispatchOutcome) :
    ∀ st ∈ (dispatchFragment f).1, dispatched st := by
  induction f with
  | nil => intro st h; simp [dispatchFragment] at h
  | cons d rest ih =>
    intro st h
    simp only [dispatchFragment, List.mem_cons] at h
    rcases h with h | h
    · subst h
      cases d with
      | reopenFail msg => exact ⟨rfl, rfl, fun _ => rfl⟩
      | transportErr msg =>
        exact ⟨rfl, rfl, fun h => by simp [ExecRemoteFragment, freshInst] at h⟩
      | remote rs =>
        by_cases hok : rs.isOk = true
        · have : rs = .ok := Status.isOk_eq_true.mp hok
          subst this
          exact ⟨rfl, rfl, fun _ => rfl⟩
        · simp only [ExecRemoteFragment, hok, if_false, Bool.not_eq_true] at *
          refine ⟨rfl, rfl, fun h => ?_⟩
          simp [freshInst] at h
    · exact ih st h

theorem cancelInstance_post {st : InstState} (h : dispatched st) :
    ((cancelInstance st).initiated = true →
      (cancelInstance st).cancelRpcSent = 1
      ∧ (cancelInstance st).status = .cancelled
      ∧ (cancelInstance st).done = false)
    ∧ ((cancelInstance st).initiated = false → (cancelInstance st).cancelRpcSent = 0) := by
  obtain ⟨hdone, hsent, hinit⟩ := h
  by_cases hok : st.status.isOk = true
  · rw [cancelInstance, if_pos hok]
    cases hi : st.initiated
    · simp [hi, hsent]
    · simp [hi, hdone, hsent]
  · rw [cancelInstance, if_neg (by simpa using hok)]
    cases hi : st.initiated
    · exact ⟨(fun h => nomatch h), fun _ => hsent⟩
    · rw [hinit hi] at hok
      exact absurd rfl hok

theorem coordExecLoop_error_cancels (fs : List (List DispatchOutcome)) :
    ∀ (acc : List InstState) (o : ExecOutcome),
      (∀ st ∈ acc, dispatched st) →
      coordExecLoop fs acc = some o → o.ret.isOk = false →
      o.queryStatus = o.ret
      ∧ ∀ st ∈ o.insts,
          (st.initiated = true →
            st.cancelRpcSent = 1 ∧ st.status = .cancelled ∧ st.done = false)
          ∧ (st.initiated = false → st.cancelRpcSent = 0) := by
  induction fs with
  | nil =>
    intro acc o _ h herr
    simp only [coordExecLoop, Option.some.injEq] at h
    rw [← h] at herr
    simp [Status.isOk] at herr
  | cons f rest ih =>
    intro acc o hacc h herr
    simp only [coordExecLoop] at h
    have hacc2 : ∀ st ∈ acc ++ (dispatchFragment f).1, dispatched st := by
      intro st hst
      rcases List.mem_append.mp hst with hst | hst
      · exact hacc st hst
      · exact dispatchFragment_dispatched f st hst
    by_cases hfo : (dispatchFragment f).2.isOk = true
    · rw [if_pos hfo] at h
      exact ih _ o hacc2 h herr
    · rw [if_neg hfo] at h
      by_cases hrest : numInstances rest = 0
      · rw [if_pos hrest] at h
        simp only [Option.some.injEq] at h
        subst h
        refine ⟨rfl, fun st hst => ?_⟩
        rcases List.mem_map.mp hst with ⟨st0, hst0, rfl⟩
        exact cancelInstance_post (hacc2 st0 hst0)
      · rw [if_neg hrest] at h
        cases h

/-- Claim C2 (amended): if any per-instance dispatch RPC fails during `Exec`,
`Exec` returns that first dispatch error and the query status equals that
error (a non-OK status — cancellation has run, but the status is not the
distinguished CANCELLED); every constructed, already-initiated instance is
sent exactly one `CancelPlanFragment` (its state moving to CANCELLED), and
un-initiated instances are sent none. -/
theorem Exec_dispatch_error_cancels_initiated (fs : List (List DispatchOutcome))
    (o : ExecOutcome) (hsome : coordExec fs = some o) (herr : o.ret.isOk = false) :
    o.queryStatus = o.ret
    ∧ ∀ st ∈ o.insts,
        (st.initiated = true →
          st.cancelRpcSent = 1 ∧ st.status = .cancelled ∧ st.done = false)
        ∧ (st.initiated = false → st.cancelRpcSent = 0) :=
  coordExecLoop_error_cancels fs [] o (fun st h => by cases h) hsome herr

/-- Concrete instantiation of `Exec_dispatch_error_cancels_initiated` on the
five-instance scenario with a failing third RPC. -/
theorem Exec_dispatch_error_cancels_initiated_witness :
    ∃ o : ExecOutcome, coordExec demoDispatch = some o
      ∧ o.queryStatus = o.ret
      ∧ ∀ st ∈ o.insts,
          (st.initiated = true →
            st.cancelRpcSent = 1 ∧ st.status = .cancelled ∧ st.done = false)
          ∧ (st.initiated = false → st.cancelRpcSent = 0) := by
  cases hres : coordExec demoDispatch with
  | none =>
    have hsome : (coordExec demoDispatch).isSome = true := by decide
    rw [hres] at hsome
    cases hsome
  | some o =>
    have hret : (coordExec demoDispatch).map (fun t => t.ret.isOk) = some false := by decide
    rw [hres] at hret
    simp at hret
    obtain ⟨h1, h2⟩ := Exec_dispatch_error_cancels_initiated demoDispatch o hres hret
    exact ⟨o, rfl, h1, h2⟩

/-! ## Instance id assignment (Coordinator::ComputeFragmentExecParams) -/

/-- The instance ids assigned to one fragment's hosts in
`ComputeFragmentExecParams`: for host `j`, `instance_num = num_backends_ + j`,
`instance_id.hi = query_id.hi` and `instance_id.lo = query_id.lo +
instance_num + 1`, guarded by the source's overflow check
`DCHECK_LT(query_id_.lo, numeric_limits<int64_t>::max() - instance_num - 1)`
(embedded as a rejecting guard).  The `j` loop is recursed by shifting the
running backend count `nb`. -/
def fragInstanceIds (qid : TUniqueId) : Nat → Nat → Option (List TUniqueId)
  | _, 0 => some []
  | nb, c + 1 =>
    if qid.lo < int64Max - (nb : Int) - 1 then
      match fragInstanceIds qid (nb + 1) c with
      | none => none
      | some rest => some (⟨qid.hi, qid.lo + (nb : Int) + 1⟩ :: rest)
    else none

/-- The instance-id loop of `ComputeFragmentExecParams` over all fragments:
`counts` are the per-fragment host counts, `nb` the running `num_backends_`
(incremented by each fragment's host count). -/
def assignInstanceIds (qid : TUniqueId) : List Nat → Nat → Option (List (List TUniqueId))
  | [], _ => some []
  | c :: rest, nb =>
    match fragInstanceIds qid nb c with
    | none => none
    | some ids =>
      match assignInstanceIds qid rest (nb + c) with
      | none => none
      | some more => some (ids :: more)

/-- All fragment-instance ids of a query, as assigned by
`ComputeFragmentExecParams` starting from `num_backends_ = 0`. -/
def ComputeFragmentInstanceIds (qid : TUniqueId) (counts : List Nat) :
    Option (List (List TUniqueId)) :=
  assignInstanceIds qid counts 0

/-- Flatten the per-fragment instance-id lists in fragment order. -/
def concatAll : List (List TUniqueId) → List TUniqueId
  | [] => []
  | l :: ls => l ++ concatAll ls

/-- The spec's description of the id sequence: instance numbers
`nb, nb+1, …, nb+c-1`, each id carrying the query id's `hi` and
`lo + instance_num + 1`. -/
def idSeq (qid : TUniqueId) : Nat → Nat → List TUniqueId
  | _, 0 => []
  | nb, c + 1 => ⟨qid.hi, qid.lo + (nb : Int) + 1⟩ :: idSeq qid (nb + 1) c

theorem fragInstanceIds_some (qid : TUniqueId) :
    ∀ (c nb : Nat) (ids : List TUniqueId),
      fragInstanceIds qid nb c = some ids →
      ids = idSeq qid nb c
      ∧ ∀ j, j < c → qid.lo < int64Max - ((nb + j : Nat) : Int) - 1 := by
  intro c
  induction c with
  | zero =>
    intro nb ids h
    simp only [fragInstanceIds, Option.some.injEq] at h
    exact ⟨h.symm ▸ rfl, fun j hj => absurd hj (by omega)⟩
  | succ c ih =>
    intro nb ids h
    rw [fragInstanceIds] at h
    by_cases hg : qid.lo < int64Max - (nb : Int) - 1
    · rw [if_pos hg] at h
      cases hf : fragInstanceIds qid (nb + 1) c with
      | none => rw [hf] at h; cases h
      | some rest =>
        rw [hf] at h
        simp only [Option.some.injEq] at h
        obtain ⟨hrest, hguard⟩ := ih (nb + 1) rest hf
        subst h
        constructor
        · rw [hrest, idSeq]
        · intro j hj
          cases j with
          | zero => simpa using hg
          | succ j =>
            have := hguard j (by omega)
            have heq : nb + 1 + j = nb + (j + 1) := by omega
            rw [heq] at this
            exact this
    · rw [if_neg hg] at h
      cases h

theorem idSeq_append (qid : TUniqueId) :
    ∀ (c d nb : Nat),
      idSeq qid nb (c + d) = idSeq qid nb c ++ idSeq qid (nb + c) d := by
  intro c
  induction c with
  | zero => intro d nb; simp [idSeq]
  | succ c ih =>
    intro d nb
    have h1 : c + 1 + d = (c + d) + 1 := by omega
    rw [h1, idSeq, idSeq, ih d (nb + 1)]
    have h2 : nb + 1 + c = nb + (c + 1) := by omega
    rw [h2]
    rfl

theorem assignInstanceIds_some (qid : TUniqueId) :
    ∀ (counts : List Nat) (nb : Nat) (idss : List (List TUniqueId)),
      assignInstanceIds qid counts nb = some idss →
      concatAll idss = idSeq qid nb counts.sum
      ∧ ∀ n, n < counts.sum → qid.lo < int64Max - ((nb + n : Nat) : Int) - 1 := by
  intro counts
  induction counts with
  | nil =>
    intro nb idss h
    simp only [assignInstanceIds, Option.some.injEq] at h
    subst h
    exact ⟨rfl, fun n hn => absurd hn (by simp)⟩
  | cons c rest ih =>
    intro nb idss h
    rw [assignInstanceIds] at h
    cases hf : fragInstanceIds qid nb c with
    | none => rw [hf] at h; cases h
    | some ids =>
      rw [hf] at h
      cases ha : assignInstanceIds qid rest (nb + c) with
      | none => rw [ha] at h; cases h
      | some more =>
        rw [ha] at h
        simp only [Option.some.injEq] at h
        subst h
        obtain ⟨hseq, hguard⟩ := ih (nb + c) more ha
        obtain ⟨hfrag, hfg⟩ := fragInstanceIds_some qid c nb ids hf
        constructor
        · show ids ++ concatAll more = idSeq qid nb (c :: rest).sum
          rw [hfrag, hseq, List.sum_cons, idSeq_append]
        · intro n hn
          rw [List.sum_cons] at hn
          by_cases hnc : n < c
          · exact hfg n hnc
          · have hx := hguard (n - c) (by omega)
            have heq : nb + c + (n - c) = nb + n := by omega
            rw [heq] at hx
            exact hx

theorem idSeq_mem (qid : TUniqueId) :
    ∀ (c nb : Nat) (x : TUniqueId), x ∈ idSeq qid nb c →
      ∃ m, nb ≤ m ∧ m < nb + c ∧ x = ⟨qid.hi, qid.lo + (m : Int) + 1⟩ := by
  intro c
  induction c with
  | zero => intro nb x h; simp [idSeq] at h
  | succ c ih =>
    intro nb x h
    rw [idSeq, List.mem_cons] at h
    rcases h with h | h
    · exact ⟨nb, le_refl nb, by omega, h⟩
    · obtain ⟨m, hm1, hm2, hm3⟩ := ih (nb + 1) x h
      exact ⟨m, by omega, by omega, hm3⟩

theorem idSeq_pairwise (qid : TUniqueId) :
    ∀ (c nb : Nat), (idSeq qid nb c).Pairwise (fun a b => a ≠ b) := by
  intro c
  induction c with
  | zero => intro nb; exact List.Pairwise.nil
  | succ c ih =>
    intro nb
    refine List.Pairwise.cons (fun x hx => ?_) (ih (nb + 1))
    obtain ⟨m, hm1, _, rfl⟩ := idSeq_mem qid c (nb + 1) x hx
    intro heq
    injection heq with h1 h2
    have : (nb : Int) = (m : Int) := by omega
    omega

/-- Claim C9: the fragment-instance ids assigned during
`ComputeFragmentExecParams` are globally unique.  When assignment succeeds,
the flattened id list is exactly `idSeq qid 0 N` (same `hi` as the query id,
`lo = query lo + instance_num + 1` for consecutive instance numbers
`0, …, N-1`), hence pairwise distinct; and an instance number whose id would
overflow the signed 64-bit `lo` field is rejected: every assigned instance
number satisfies the overflow bound, and a query id violating the bound for
the last instance number yields no assignment. -/
theorem instance_ids_unique (qid : TUniqueId) (counts : List Nat) :
    (∀ idss, ComputeFragmentInstanceIds qid counts = some idss →
        concatAll idss = idSeq qid 0 counts.sum
        ∧ (concatAll idss).Pairwise (fun a b => a ≠ b)
        ∧ (∀ x ∈ concatAll idss, x.hi = qid.hi)
        ∧ (∀ n, n < counts.sum → qid.lo < int64Max - (n : Int) - 1))
    ∧ (0 < counts.sum → int64Max - (counts.sum : Int) ≤ qid.lo →
        ComputeFragmentInstanceIds qid counts = none) := by
  constructor
  · intro idss h
    obtain ⟨h1, h2⟩ := assignInstanceIds_some qid counts 0 idss h
    refine ⟨h1, ?_, ?_, ?_⟩
    · rw [h1]; exact idSeq_pairwise qid counts.sum 0
    · rw [h1]
      intro x hx
      obtain ⟨m, _, _, rfl⟩ := idSeq_mem qid counts.sum 0 x hx
      rfl
    · intro n hn
      have := h2 n hn
      simpa using this
  · intro hpos hov
    cases hres : ComputeFragmentInstanceIds qid counts with
    | none => rfl
    | some idss =>
      obtain ⟨_, h2⟩ := assignInstanceIds_some qid counts 0 idss hres
      have hg := h2 (counts.sum - 1) (by omega)
      have hc : ((0 + (counts.sum - 1) : Nat) : Int) = (counts.sum : Int) - 1 := by
        have h1 : (1 : Nat) ≤ counts.sum := hpos
        push_cast [Nat.sub_one, Nat.zero_add]
        omega
      rw [hc] at hg
      omega

/-- Concrete instantiation of `instance_ids_unique`: query id (12, 100) with
fragments of 2 and 3 hosts yields the five distinct ids 101–105, and a query
id whose `lo` is within 2 of the int64 maximum is rejected for 3 instances. -/
theorem instance_ids_unique_witness :
    (concatAll [[⟨12, 101⟩, ⟨12, 102⟩], [⟨12, 103⟩, ⟨12, 104⟩, ⟨12, 105⟩]]).Pairwise
      (fun a b => a ≠ b)
    ∧ ComputeFragmentInstanceIds ⟨12, int64Max - 2⟩ [3] = none := by
  constructor
  · exact ((instance_ids_unique ⟨12, 100⟩ [2, 3]).1
      [[⟨12, 101⟩, ⟨12, 102⟩], [⟨12, 103⟩, ⟨12, 104⟩, ⟨12, 105⟩]] (by decide)).2.1
  · refine (instance_ids_unique ⟨12, int64Max - 2⟩ [3]).2 (by decide) ?_
    show int64Max - ((List.sum [3] : Nat) : Int) ≤ int64Max - 2
    norm_num
    omega

/-! ## Finalization (Coordinator::FinalizeQuery) -/

/-- `hdfsFileInfo::mKind`: a listed directory entry is a file or a directory. -/
inductive FileKind where
  | file
  | dir
deriving DecidableEq

/-- One entry returned by `hdfsListDirectory` (`mName` and `mKind`). -/
structure HdfsEntry where
  name : String
  kind : FileKind
deriving DecidableEq

/-- The filesystem surface consumed by the finalizer, as oracles:
`hdfsListDirectory` (`none` = failure), `hdfsExists` (`!= -1`),
`hdfsDelete` and `hdfsRename` (`false` = returned `-1`). -/
structure Hdfs where
  listDir : String → Option (List HdfsEntry)
  pathExists : String → Bool
  delete : String → Bool
  rename : String → String → Bool

/-- `TFinalizeParams`: the table's base directory and the OVERWRITE flag. -/
structure TFinalizeParams where
  hdfsBaseDir : String
  isOverwrite : Bool

/-- Filesystem operations the finalizer performed, by phase: files deleted
from the root directory (OVERWRITE, unpartitioned), partition directories
deleted recursively (OVERWRITE, partitioned), directories created, tmp files
renamed to their destinations, and tmp directories deleted. -/
structure FinalizeTrace where
  rootDeletes : List String
  partitionDirDeletes : List String
  createdDirs : List String
  renames : List (String × String)
  tmpDirDeletes : List String
deriving DecidableEq

def emptyTrace : FinalizeTrace := ⟨[], [], [], [], []⟩

/-- The inner loop of finalization step 1 for an unpartitioned table: walk the
root directory listing, delete entries of file kind only, and stop at the
first failed delete, which becomes the delete status.  Returns the names
passed to `hdfsDelete` and the resulting status. -/
def deleteRootFiles (hfs : Hdfs) : List HdfsEntry → List String × Status
  | [] => ([], .ok)
  | e :: rest =>
    if e.kind = FileKind.file then
      if hfs.delete e.name then
        ((e.name :: (deleteRootFiles hfs rest).1), (deleteRootFiles hfs rest).2)
      else ([e.name],
        .error ("Failed to delete existing HDFS file as part of INSERT OVERWRITE query: "
          ++ e.name))
    else deleteRootFiles hfs rest

/-- Finalization steps 1 and 2, per partition: under OVERWRITE, an empty
partition key means the unpartitioned root directory — list it and delete
files only, propagating list and delete failures; a non-empty key is a
partition directory — delete it recursively if it exists.  Then create the
partition directory, ignoring errors. -/
def finalizePartitions (hfs : Hdfs) (fp : TFinalizeParams) :
    List String → FinalizeTrace → FinalizeTrace × Status
  | [], tr => (tr, .ok)
  | key :: rest, tr =>
    if fp.isOverwrite then
      if key = "" then
        match hfs.listDir (fp.hdfsBaseDir ++ "/" ++ key) with
        | none =>
          (tr, .error ("Could not list directory: " ++ (fp.hdfsBaseDir ++ "/" ++ key)))
        | some entries =>
          if (deleteRootFiles hfs entries).2.isOk = false then
            ({ tr with rootDeletes := tr.rootDeletes ++ (deleteRootFiles hfs entries).1 },
              (deleteRootFiles hfs entries).2)
          else
            finalizePartitions hfs fp rest
              { tr with
                  rootDeletes := tr.rootDeletes ++ (deleteRootFiles hfs entries).1,
                  createdDirs := tr.createdDirs ++ [fp.hdfsBaseDir ++ "/" ++ key] }
      else
        if hfs.pathExists (fp.hdfsBaseDir ++ "/" ++ key) then
          if hfs.delete (fp.hdfsBaseDir ++ "/" ++ key) then
            finalizePartitions hfs fp rest
              { tr with
                  partitionDirDeletes :=
                    tr.partitionDirDeletes ++ [fp.hdfsBaseDir ++ "/" ++ key],
                  createdDirs := tr.createdDirs ++ [fp.hdfsBaseDir ++ "/" ++ key] }
          else
            (tr, .error ("Failed to delete partition directory as part of INSERT OVERWRITE query: "
              ++ (fp.hdfsBaseDir ++ "/" ++ key)))
        else
          finalizePartitions hfs fp rest
            { tr with createdDirs := tr.createdDirs ++ [fp.hdfsBaseDir ++ "/" ++ key] }
    else
      finalizePartitions hfs fp rest
        { tr with createdDirs := tr.createdDirs ++ [fp.hdfsBaseDir ++ "/" ++ key] }

/-- Ordered-set insertion, mirroring `std::set<std::string>::insert`. -/
def insertSorted (x : String) : List String → List String
  | [] => [x]
  | y :: rest =>
    if x = y then y :: rest
    else if x < y then x :: y :: rest
    else y :: insertSorted x rest

/-- Finalization step 3: walk the pending-move map; an empty destination
collects the source into the tmp-directory set for step 4; a non-empty
destination is renamed, failing the query on the first rename error. -/
def doMoves (hfs : Hdfs) :
    List (String × String) → FinalizeTrace → List String →
      FinalizeTrace × List String × Status
  | [], tr, tmp => (tr, tmp, .ok)
  | (src, dst) :: rest, tr, tmp =>
    if dst = "" then doMoves hfs rest tr (insertSorted src tmp)
    else
      if hfs.rename src dst then
        doMoves hfs rest { tr with renames := tr.renames ++ [(src, dst)] } tmp
      else
        ({ tr with renames := tr.renames ++ [(src, dst)] }, tmp,
          .error ("Could not move HDFS file: " ++ src ++ " to desintation: " ++ dst))

/-- Finalization step 4: delete the accumulated tmp directories, failing on
the first error. -/
def deleteTmpDirs (hfs : Hdfs) : List String → FinalizeTrace → FinalizeTrace × Status
  | [], tr => (tr, .ok)
  | p :: rest, tr =>
    if hfs.delete p then
      deleteTmpDirs hfs rest { tr with tmpDirDeletes := tr.tmpDirDeletes ++ [p] }
    else
      ({ tr with tmpDirDeletes := tr.tmpDirDeletes ++ [p] },
        .error ("Failed to delete temporary directory: " ++ p))

/-- `Coordinator::FinalizeQuery`: steps 1–2 over the written partitions, then
the pending moves, then the tmp-directory deletes; the first failing step's
status is returned. -/
def FinalizeQuery (hfs : Hdfs) (fp : TFinalizeParams) (partitionKeys : List String)
    (filesToMove : List (String × String)) : FinalizeTrace × Status :=
  if (finalizePartitions hfs fp partitionKeys emptyTrace).2.isOk = false then
    finalizePartitions hfs fp partitionKeys emptyTrace
  else
    if (doMoves hfs filesToMove (finalizePartitions hfs fp partitionKeys emptyTrace).1
        []).2.2.isOk = false then
      ((doMoves hfs filesToMove (finalizePartitions hfs fp partitionKeys emptyTrace).1
          []).1,
        (doMoves hfs filesToMove (finalizePartitions hfs fp partitionKeys emptyTrace).1
          []).2.2)
    else
      deleteTmpDirs hfs
        (doMoves hfs filesToMove (finalizePartitions hfs fp partitionKeys emptyTrace).1
          []).2.1
        (doMoves hfs filesToMove (finalizePartitions hfs fp partitionKeys emptyTrace).1
          []).1

theorem deleteRootFiles_only_files (hfs : Hdfs) :
    ∀ (entries : List HdfsEntry) (p : String), p ∈ (deleteRootFiles hfs entries).1 →
      ∃ e, e ∈ entries ∧ e.name = p ∧ e.kind = FileKind.file := by
  intro entries
  induction entries with
  | nil => intro p h; simp [deleteRootFiles] at h
  | cons e rest ih =>
    intro p h
    rw [deleteRootFiles] at h
    by_cases hk : e.kind = FileKind.file
    · rw [if_pos hk] at h
      by_cases hd : hfs.delete e.name = true
      · rw [if_pos hd] at h
        rcases List.mem_cons.mp h with h | h
        · exact ⟨e, List.mem_cons_self e rest, h.symm, hk⟩
        · obtain ⟨e2, h1, h2, h3⟩ := ih p h
          exact ⟨e2, List.mem_cons_of_mem e h1, h2, h3⟩
      · rw [if_neg hd] at h
        rcases List.mem_cons.mp h with h | h
        · exact ⟨e, List.mem_cons_self e rest, h.symm, hk⟩
        · simp at h
    · rw [if_neg hk] at h
      obtain ⟨e2, h1, h2, h3⟩ := ih p h
      exact ⟨e2, List.mem_cons_of_mem e h1, h2, h3⟩

theorem deleteRootFiles_fails (hfs : Hdfs) :
    ∀ (entries : List HdfsEntry),
      (∃ e, e ∈ entries ∧ e.kind = FileKind.file ∧ hfs.delete e.name = false) →
      (deleteRootFiles hfs entries).2.isOk = false := by
  intro entries
  induction entries with
  | nil => intro h; obtain ⟨e, he, _, _⟩ := h; simp at he
  | cons e rest ih =>
    intro h
    rw [deleteRootFiles]
    by_cases hk : e.kind = FileKind.file
    · rw [if_pos hk]
      by_cases hd : hfs.delete e.name = true
      · rw [if_pos hd]
        obtain ⟨e2, he2, hk2, hd2⟩ := h
        rcases List.mem_cons.mp he2 with he2 | he2
        · subst he2; rw [hd] at hd2; cases hd2
        · exact ih ⟨e2, he2, hk2, hd2⟩
      · rw [if_neg hd]
        rfl
    · rw [if_neg hk]
      obtain ⟨e2, he2, hk2, hd2⟩ := h
      rcases List.mem_cons.mp he2 with he2 | he2
      · subst he2; exact absurd hk2 hk
      · exact ih ⟨e2, he2, hk2, hd2⟩

theorem deleteRootFiles_all_ok (hfs : Hdfs) :
    ∀ (entries : List HdfsEntry),
      (∀ e ∈ entries, e.kind = FileKind.file → hfs.delete e.name = true) →
      deleteRootFiles hfs entries =
        ((entries.filter (fun e => decide (e.kind = FileKind.file))).map HdfsEntry.name,
          .ok) := by
  intro entries
  induction entries with
  | nil => intro _; rfl
  | cons e rest ih =>
    intro hall
    rw [deleteRootFiles]
    by_cases hk : e.kind = FileKind.file
    · rw [if_pos hk, if_pos (hall e (List.mem_cons_self e rest) hk)]
      rw [ih (fun e2 h2 => hall e2 (List.mem_cons_of_mem e h2))]
      simp [List.filter_cons, hk]
    · rw [if_neg hk]
      rw [ih (fun e2 h2 => hall e2 (List.mem_cons_of_mem e h2))]
      simp [List.filter_cons, hk]

theorem doMoves_rootDeletes (hfs : Hdfs) :
    ∀ (moves : List (String × String)) (tr : FinalizeTrace) (tmp : List String),
      (doMoves hfs moves tr tmp).1.rootDeletes = tr.rootDeletes := by
  intro moves
  induction moves with
  | nil => intro tr tmp; rfl
  | cons m rest ih =>
    intro tr tmp
    obtain ⟨src, dst⟩ := m
    rw [doMoves]
    by_cases hd : dst = ""
    · rw [if_pos hd]; exact ih tr (insertSorted src tmp)
    · rw [if_neg hd]
      by_cases hr : hfs.rename src dst = true
      · rw [if_pos hr]; exact ih _ tmp
      · rw [if_neg hr]

theorem deleteTmpDirs_rootDeletes (hfs : Hdfs) :
    ∀ (dirs : List String) (tr : FinalizeTrace),
      (deleteTmpDirs hfs dirs tr).1.rootDeletes = tr.rootDeletes := by
  intro dirs
  induction dirs with
  | nil => intro tr; rfl
  | cons p rest ih =>
    intro tr
    rw [deleteTmpDirs]
    by_cases hd : hfs.delete p = true
    · rw [if_pos hd]; exact ih _
    · rw [if_neg hd]

theorem deleteTmpDirs_renames (hfs : Hdfs) :
    ∀ (dirs : List String) (tr : FinalizeTrace),
      (deleteTmpDirs hfs dirs tr).1.renames = tr.renames := by
  intro dirs
  induction dirs with
  | nil => intro tr; rfl
  | cons p rest ih =>
    intro tr
    rw [deleteTmpDirs]
    by_cases hd : hfs.delete p = true
    · rw [if_pos hd]; exact ih _
    · rw [if_neg hd]

theorem doMoves_ok_renames (hfs : Hdfs) :
    ∀ (moves : List (String × String)) (tr : FinalizeTrace) (tmp : List String),
      (doMoves hfs moves tr tmp).2.2.isOk = true →
      (doMoves hfs moves tr tmp).1.renames =
        tr.renames ++ moves.filter (fun m => decide (¬ m.2 = ""))
      ∧ ∀ m ∈ moves, ¬ m.2 = "" → hfs.rename m.1 m.2 = true := by
  intro moves
  induction moves with
  | nil => intro tr tmp _; exact ⟨by simp [doMoves], fun m hm => by simp at hm⟩
  | cons m rest ih =>
    intro tr tmp hok
    obtain ⟨src, dst⟩ := m
    rw [doMoves] at hok ⊢
    by_cases hd : dst = ""
    · rw [if_pos hd] at hok ⊢
      obtain ⟨h1, h2⟩ := ih tr (insertSorted src tmp) hok
      refine ⟨by rw [h1]; simp [List.filter_cons, hd], fun m hm hne => ?_⟩
      rcases List.mem_cons.mp hm with hm | hm
      · subst hm; exact absurd hd hne
      · exact h2 m hm hne
    · rw [if_neg hd] at hok ⊢
      by_cases hr : hfs.rename src dst = true
      · rw [if_pos hr] at hok ⊢
        obtain ⟨h1, h2⟩ := ih { tr with renames := tr.renames ++ [(src, dst)] } tmp hok
        constructor
        · rw [h1]
          simp [List.filter_cons, hd]
        · intro m hm hne
          rcases List.mem_cons.mp hm with hm | hm
          · subst hm; exact hr
          · exact h2 m hm hne
      · rw [if_neg hr] at hok
        cases hok

theorem finalizePartitions_root (hfs : Hdfs) (bd : String) (entries : List HdfsEntry)
    (hl : hfs.listDir (bd ++ "/" ++ "") = some entries) :
    finalizePartitions hfs ⟨bd, true⟩ [""] emptyTrace =
      if (deleteRootFiles hfs entries).2.isOk = false then
        (⟨(deleteRootFiles hfs entries).1, [], [], [], []⟩, (deleteRootFiles hfs entries).2)
      else
        (⟨(deleteRootFiles hfs entries).1, [], [bd ++ "/" ++ ""], [], []⟩, .ok) := by
  have e0 : finalizePartitions hfs ⟨bd, true⟩ [""] emptyTrace =
      (match hfs.listDir (bd ++ "/" ++ "") with
       | none =>
         (emptyTrace, .error ("Could not list directory: " ++ (bd ++ "/" ++ "")))
       | some es =>
         if (deleteRootFiles hfs es).2.isOk = false then
           (⟨(deleteRootFiles hfs es).1, [], [], [], []⟩, (deleteRootFiles hfs es).2)
         else
           (⟨(deleteRootFiles hfs es).1, [], [bd ++ "/" ++ ""], [], []⟩, .ok)) := rfl
  rw [e0, hl]

theorem finalizePartitions_root_none (hfs : Hdfs) (bd : String)
    (hl : hfs.listDir (bd ++ "/" ++ "") = none) :
    finalizePartitions hfs ⟨bd, true⟩ [""] emptyTrace =
      (emptyTrace, .error ("Could not list directory: " ++ (bd ++ "/" ++ ""))) := by
  have e0 : finalizePartitions hfs ⟨bd, true⟩ [""] emptyTrace =
      (match hfs.listDir (bd ++ "/" ++ "") with
       | none =>
         (emptyTrace, .error ("Could not list directory: " ++ (bd ++ "/" ++ "")))
       | some es =>
         if (deleteRootFiles hfs es).2.isOk = false then
           (⟨(deleteRootFiles hfs es).1, [], [], [], []⟩, (deleteRootFiles hfs es).2)
         else
           (⟨(deleteRootFiles hfs es).1, [], [bd ++ "/" ++ ""], [], []⟩, .ok)) := rfl
  rw [e0, hl]

theorem FinalizeQuery_root_rootDeletes (hfs : Hdfs) (bd : String)
    (moves : List (String × String)) (entries : List HdfsEntry)
    (hl : hfs.listDir (bd ++ "/" ++ "") = some entries) :
    (FinalizeQuery hfs ⟨bd, true⟩ [""] moves).1.rootDeletes =
      (deleteRootFiles hfs entries).1 := by
  rw [FinalizeQuery, finalizePartitions_root hfs bd entries hl]
  by_cases hst : (deleteRootFiles hfs entries).2.isOk = false
  · rw [if_pos hst, if_pos hst]
  · rw [if_neg hst]
    rw [if_neg (fun h => nomatch h)]
    by_cases hdm : (doMoves hfs moves
        (⟨(deleteRootFiles hfs entries).1, [], [bd ++ "/" ++ ""], [], []⟩ : FinalizeTrace)
        []).2.2.isOk = false
    · rw [if_pos hdm]
      rw [doMoves_rootDeletes]
    · rw [if_neg hdm]
      rw [deleteTmpDirs_rootDeletes, doMoves_rootDeletes]

/-- Claim C7: for an OVERWRITE insert into an unpartitioned table (single
empty partition key), finalization lists the base directory and deletes only
listed entries of file kind — never subdirectories; a list failure or any
file-delete failure becomes the query status; and whenever finalization
succeeds, the pending moves with non-empty destinations were all performed
as renames, in map order (a rename failure fails the query, by the last
conjunct's contrapositive). -/
theorem FinalizeQuery_root_overwrite_deletes_files_only (hfs : Hdfs) (bd : String)
    (moves : List (String × String)) :
    (∀ entries, hfs.listDir (bd ++ "/" ++ "") = some entries →
      ∀ p ∈ (FinalizeQuery hfs ⟨bd, true⟩ [""] moves).1.rootDeletes,
        ∃ e, e ∈ entries ∧ e.name = p ∧ e.kind = FileKind.file)
    ∧ (∀ entries, hfs.listDir (bd ++ "/" ++ "") = some entries →
        (∀ e ∈ entries, e.kind = FileKind.file → hfs.delete e.name = true) →
        (FinalizeQuery hfs ⟨bd, true⟩ [""] moves).1.rootDeletes =
          (entries.filter (fun e => decide (e.kind = FileKind.file))).map HdfsEntry.name)
    ∧ (hfs.listDir (bd ++ "/" ++ "") = none →
        (FinalizeQuery hfs ⟨bd, true⟩ [""] moves).2 =
          .error ("Could not list directory: " ++ (bd ++ "/" ++ "")))
    ∧ (∀ entries, hfs.listDir (bd ++ "/" ++ "") = some entries →
        (∃ e, e ∈ entries ∧ e.kind = FileKind.file ∧ hfs.delete e.name = false) →
        (FinalizeQuery hfs ⟨bd, true⟩ [""] moves).2.isOk = false)
    ∧ ((FinalizeQuery hfs ⟨bd, true⟩ [""] moves).2.isOk = true →
        (FinalizeQuery hfs ⟨bd, true⟩ [""] moves).1.renames =
          moves.filter (fun m => decide (¬ m.2 = ""))
        ∧ ∀ m ∈ moves, ¬ m.2 = "" → hfs.rename m.1 m.2 = true) := by
  refine ⟨?_, ?_, ?_, ?_, ?_⟩
  · intro entries hl p hp
    rw [FinalizeQuery_root_rootDeletes hfs bd moves entries hl] at hp
    exact deleteRootFiles_only_files hfs entries p hp
  · intro entries hl hall
    rw [FinalizeQuery_root_rootDeletes hfs bd moves entries hl,
      deleteRootFiles_all_ok hfs entries hall]
  · intro hl
    rw [FinalizeQuery, finalizePartitions_root_none hfs bd hl]
    rw [if_pos (show (Status.error
      ("Could not list directory: " ++ (bd ++ "/" ++ ""))).isOk = false from rfl)]
  · intro entries hl hex
    have hst : (deleteRootFiles hfs entries).2.isOk = false :=
      deleteRootFiles_fails hfs entries hex
    rw [FinalizeQuery, finalizePartitions_root hfs bd entries hl]
    rw [if_pos hst, if_pos hst]
    exact hst
  · intro hok
    cases hl : hfs.listDir (bd ++ "/" ++ "") with
    | none =>
      rw [FinalizeQuery, finalizePartitions_root_none hfs bd hl] at hok
      rw [if_pos (show (Status.error
        ("Could not list directory: " ++ (bd ++ "/" ++ ""))).isOk = false from rfl)] at hok
      cases hok
    | some entries =>
      rw [FinalizeQuery, finalizePartitions_root hfs bd entries hl] at hok ⊢
      by_cases hst : (deleteRootFiles hfs entries).2.isOk = false
      · rw [if_pos hst, if_pos hst] at hok
        rw [hst] at hok
        cases hok
      · rw [if_neg hst, if_neg (fun h => nomatch h)] at hok ⊢
        by_cases hdm : (doMoves hfs moves
            (⟨(deleteRootFiles hfs entries).1, [], [bd ++ "/" ++ ""], [], []⟩ : FinalizeTrace)
            []).2.2.isOk = false
        · rw [if_pos hdm] at hok
          rw [hdm] at hok
          cases hok
        · rw [if_neg hdm] at hok ⊢
          have hdmt : (doMoves hfs moves
              (⟨(deleteRootFiles hfs entries).1, [], [bd ++ "/" ++ ""], [], []⟩ : FinalizeTrace)
              []).2.2.isOk = true := by
            cases hv : (doMoves hfs moves
                (⟨(deleteRootFiles hfs entries).1, [], [bd ++ "/" ++ ""], [], []⟩ : FinalizeTrace)
                []).2.2.isOk
            · exact absurd hv hdm
            · rfl
          obtain ⟨h1, h2⟩ := doMoves_ok_renames hfs moves
            (⟨(deleteRootFiles hfs entries).1, [], [bd ++ "/" ++ ""], [], []⟩ : FinalizeTrace)
            [] hdmt
          refine ⟨?_, h2⟩
          rw [deleteTmpDirs_renames, h1]
          rfl

/-- The spec scenario's root directory listing: files `a` and `b` plus a
subdirectory `sub`. -/
def demoEntries : List HdfsEntry :=
  [⟨"base/a", .file⟩, ⟨"base/b", .file⟩, ⟨"base/sub", .dir⟩]

/-- A filesystem oracle for the scenario; every delete and rename succeeds. -/
def demoFs : Hdfs :=
  { listDir := fun p => if p = "base/" then some demoEntries else none,
    pathExists := fun _ => true,
    delete := fun _ => true,
    rename := fun _ _ => true }

def demoMoves : List (String × String) := [("tmp1", "base/a"), ("tmp2", "base/c")]

/-- Concrete instantiation of `FinalizeQuery_root_overwrite_deletes_files_only`
on the spec scenario: the finalizer deletes exactly the files `a` and `b`,
preserves `sub/`, and performs both pending renames. -/
theorem FinalizeQuery_root_overwrite_witness :
    (∀ p ∈ (FinalizeQuery demoFs ⟨"base", true⟩ [""] demoMoves).1.rootDeletes,
      ∃ e, e ∈ demoEntries ∧ e.name = p ∧ e.kind = FileKind.file)
    ∧ (FinalizeQuery demoFs ⟨"base", true⟩ [""] demoMoves).1.rootDeletes
        = ["base/a", "base/b"]
    ∧ (FinalizeQuery demoFs ⟨"base", true⟩ [""] demoMoves).1.renames = demoMoves := by
  have hl : demoFs.listDir ("base" ++ "/" ++ "") = some demoEntries := by decide
  obtain ⟨c1, c2, _, _, c5⟩ :=
    FinalizeQuery_root_overwrite_deletes_files_only demoFs "base" demoMoves
  refine ⟨c1 demoEntries hl, ?_, ?_⟩
  · rw [c2 demoEntries hl (by decide)]
    decide
  · obtain ⟨h1, _⟩ := c5 (by decide)
    rw [h1]
    decide

/-! ## Scan-range assignment (Coordinator::ComputeScanRangeAssignment) -/

/-- `THdfsFileSplit`: file path, offset and length of a file split. -/
structure THdfsFileSplit where
  path : String
  offset : Int
  length : Int
deriving DecidableEq

/-- `TScanRange`: an optional hdfs file split (`__isset.hdfs_file_split`). -/
structure TScanRange where
  hdfsFileSplit : Option THdfsFileSplit
deriving DecidableEq

/-- `GetScanRangeLength`: the split length, or 0 for non-file splits. -/
def GetScanRangeLength (scanRange : TScanRange) : Int :=
  match scanRange.hdfsFileSplit with
  | some split => split.length
  | none => 0

/-- `TScanRangeLocation`: one replica (data server and volume-id hint). -/
structure TScanRangeLocation where
  server : THostPort
  volumeId : Int
deriving DecidableEq

/-- `TScanRangeLocations`: a scan range with its replica locations. -/
structure TScanRangeLocations where
  scanRange : TScanRange
  locations : List TScanRangeLocation
deriving DecidableEq

/-- `TScanRangeParams`: a scan range as handed to a backend, with the chosen
volume id. -/
structure TScanRangeParams where
  scanRange : TScanRange
  volumeId : Int
deriving DecidableEq

/-- The `unordered_map<THostPort, int64_t> assigned_bytes_per_host` as an
association list; an absent key reads as 0, matching `FindOrInsert`'s
default. -/
def alGet (m : List (THostPort × Int)) (k : THostPort) : Int :=
  match m with
  | [] => 0
  | (k2, v) :: rest => if k2 = k then v else alGet rest k

/-- `FindOrInsert(&assigned_bytes_per_host, location.server, 0)`: materialize
a zero entry for an absent key. -/
def alInsertIfAbsent (m : List (THostPort × Int)) (k : THostPort) :
    List (THostPort × Int) :=
  match m with
  | [] => [(k, 0)]
  | (k2, v) :: rest =>
    if k2 = k then (k2, v) :: rest else (k2, v) :: alInsertIfAbsent rest k

/-- `assigned_bytes_per_host[*data_host] += length`. -/
def alAdd (m : List (THostPort × Int)) (k : THostPort) (d : Int) :
    List (THostPort × Int) :=
  match m with
  | [] => [(k, d)]
  | (k2, v) :: rest =>
    if k2 = k then (k2, v + d) :: rest else (k2, v) :: alAdd rest k d

/-- State of the inner location loop of `ComputeScanRangeAssignment`:
the evolving bytes map, `min_assigned_bytes` (initially
`numeric_limits<int64_t>::max()`), and the best data host / volume id seen. -/
structure ChooseState where
  m : List (THostPort × Int)
  minBytes : Int
  dataHost : Option THostPort
  volumeId : Int
deriving DecidableEq

/-- The inner location loop: each location's server is inserted into the map
(with 0 bytes if absent); the running minimum improves only on a strictly
smaller value, so the first occurrence of the minimum wins. -/
def chooseLoop (st : ChooseState) : List TScanRangeLocation → ChooseState
  | [] => st
  | loc :: rest =>
    if alGet (alInsertIfAbsent st.m loc.server) loc.server < st.minBytes then
      chooseLoop
        ⟨alInsertIfAbsent st.m loc.server,
          alGet (alInsertIfAbsent st.m loc.server) loc.server,
          some loc.server, loc.volumeId⟩ rest
    else
      chooseLoop ⟨alInsertIfAbsent st.m loc.server, st.minBytes, st.dataHost, st.volumeId⟩
        rest

/-- The fields of `FragmentExecParams` the assigner consults: the execution
host list and the `data_server_map`. -/
structure FragmentExecParams where
  hosts : List THostPort
  dataServerMap : List (THostPort × THostPort)
deriving DecidableEq

def alFindHost (m : List (THostPort × THostPort)) (k : THostPort) : Option THostPort :=
  match m with
  | [] => none
  | (k2, v) :: rest => if k2 = k then some v else alFindHost rest k

/-- Translate the chosen data host to an execution host: the sole host when
the fragment has exactly one, else a `data_server_map` lookup (`none` models
dereferencing the end iterator when the DCHECKed lookup misses). -/
def execHostFor (params : FragmentExecParams) (dataHost : THostPort) : Option THostPort :=
  if params.hosts.length = 1 then params.hosts.head?
  else alFindHost params.dataServerMap dataHost

/-- Append one scan range to the per-host assignment
(`FindOrInsert` + `push_back`); the per-node map level is a single node here
since `ComputeScanRangeAssignment` is called once per scan node. -/
def asgAppend (a : List (THostPort × List TScanRangeParams)) (h : THostPort)
    (p : TScanRangeParams) : List (THostPort × List TScanRangeParams) :=
  match a with
  | [] => [(h, [p])]
  | (k, l) :: rest =>
    if k = h then (k, l ++ [p]) :: rest else (k, l) :: asgAppend rest h p

/-- The assigner's state: assigned bytes per data host and the per-exec-host
assignment being built. -/
structure AssignState where
  bytes : List (THostPort × Int)
  assignment : List (THostPort × List TScanRangeParams)
deriving DecidableEq

/-- One iteration of `ComputeScanRangeAssignment`'s range loop: pick the
location with the fewest assigned bytes, charge the range's length to that
data host, translate it to an execution host, and append the range (with the
chosen volume id) to that host's list.  `none` models the NULL `data_host`
dereference (empty location list / no host below the int64 sentinel) and the
missed `data_server_map` lookup. -/
def csraStep (params : FragmentExecParams) (st : AssignState) (r : TScanRangeLocations) :
    Option AssignState :=
  match (chooseLoop ⟨st.bytes, int64Max, none, -1⟩ r.locations).dataHost with
  | none => none
  | some dh =>
    match execHostFor params dh with
    | none => none
    | some eh =>
      some ⟨alAdd (chooseLoop ⟨st.bytes, int64Max, none, -1⟩ r.locations).m dh
              (GetScanRangeLength r.scanRange),
            asgAppend st.assignment eh
              ⟨r.scanRange, (chooseLoop ⟨st.bytes, int64Max, none, -1⟩ r.locations).volumeId⟩⟩

def csraFold (params : FragmentExecParams) (st : AssignState) :
    List TScanRangeLocations → Option AssignState
  | [] => some st
  | r :: rest =>
    match csraStep params st r with
    | none => none
    | some st2 => csraFold params st2 rest

/-- `Coordinator::ComputeScanRangeAssignment` for one scan node. -/
def ComputeScanRangeAssignment (params : FragmentExecParams)
    (locations : List TScanRangeLocations) : Option AssignState :=
  csraFold params ⟨[], []⟩ locations

/-- Modelled from the claim's wording: the replica location whose assigned
bytes are currently minimum, ties broken by first occurrence in the input
order (a later location replaces the best only when strictly smaller). -/
def firstMinLoc (f : THostPort → Int) : List TScanRangeLocation → Option TScanRangeLocation
  | [] => none
  | l :: rest =>
    match firstMinLoc f rest with
    | none => some l
    | some r => if f r.server < f l.server then some r else some l

/-- The zero entries the location loop materializes for every visited
server. -/
def insertAllServers (m : List (THostPort × Int)) :
    List TScanRangeLocation → List (THostPort × Int)
  | [] => m
  | loc :: rest => insertAllServers (alInsertIfAbsent m loc.server) rest

/-- The claim's description of one assignment step: choose by `firstMinLoc`,
charge the range length, translate, append. -/
def csraSpecStep (params : FragmentExecParams) (st : AssignState)
    (r : TScanRangeLocations) : Option AssignState :=
  match firstMinLoc (alGet st.bytes) r.locations with
  | none => none
  | some loc =>
    match execHostFor params loc.server with
    | none => none
    | some eh =>
      some ⟨alAdd (insertAllServers st.bytes r.locations) loc.server
              (GetScanRangeLength r.scanRange),
            asgAppend st.assignment eh ⟨r.scanRange, loc.volumeId⟩⟩

def csraSpecFold (params : FragmentExecParams) (st : AssignState) :
    List TScanRangeLocations → Option AssignState
  | [] => some st
  | r :: rest =>
    match csraSpecStep params st r with
    | none => none
    | some st2 => csraSpecFold params st2 rest

/-- The claim-level assignment algorithm. -/
def csraSpec (params : FragmentExecParams) (locations : List TScanRangeLocations) :
    Option AssignState :=
  csraSpecFold params ⟨[], []⟩ locations

/-- Sum of the input ranges' lengths. -/
def sumLens (locs : List TScanRangeLocations) : Int :=
  locs.foldr (fun r acc => GetScanRangeLength r.scanRange + acc) 0

/-- The largest single range length of the input (`max_range_size`). -/
def maxRangeLength (locs : List TScanRangeLocations) : Int :=
  locs.foldr (fun r acc => max (GetScanRangeLength r.scanRange) acc) 0

/-- All emitted scan-range params of an assignment, across hosts. -/
def flattenAssignment : List (THostPort × List TScanRangeParams) → List TScanRangeParams
  | [] => []
  | (_, l) :: rest => l ++ flattenAssignment rest

theorem alGet_insert (m : List (THostPort × Int)) (k h : THostPort) :
    alGet (alInsertIfAbsent m k) h = alGet m h := by
  induction m with
  | nil =>
    simp only [alInsertIfAbsent, alGet]
    split
    · rfl
    · rfl
  | cons kv rest ih =>
    obtain ⟨k2, v⟩ := kv
    rw [alInsertIfAbsent]
    by_cases hk : k2 = k
    · rw [if_pos hk]
    · rw [if_neg hk, alGet, alGet]
      by_cases hh : k2 = h
      · rw [if_pos hh, if_pos hh]
      · rw [if_neg hh, if_neg hh, ih]

theorem alGet_insertAll (locs : List TScanRangeLocation) :
    ∀ (m : List (THostPort × Int)) (h : THostPort),
      alGet (insertAllServers m locs) h = alGet m h := by
  induction locs with
  | nil => intro m h; rfl
  | cons loc rest ih =>
    intro m h
    rw [insertAllServers, ih, alGet_insert]

theorem alGet_add (m : List (THostPort × Int)) (k h : THostPort) (d : Int) :
    alGet (alAdd m k d) h = if k = h then alGet m h + d else alGet m h := by
  induction m with
  | nil =>
    simp only [alAdd, alGet]
    by_cases hk : k = h
    · rw [if_pos hk, if_pos hk]
      omega
    · rw [if_neg hk, if_neg hk]
  | cons kv rest ih =>
    obtain ⟨k2, v⟩ := kv
    rw [alAdd]
    by_cases hk2 : k2 = k
    · rw [if_pos hk2, alGet, alGet]
      by_cases hh : k2 = h
      · rw [if_pos hh, if_pos hh, if_pos (hk2 ▸ hh : k = h)]
      · rw [if_neg hh, if_neg hh]
        have : ¬ k = h := fun he => hh (hk2.symm ▸ he)
        rw [if_neg this]
    · rw [if_neg hk2, alGet, alGet]
      by_cases hh : k2 = h
      · rw [if_pos hh, if_pos hh]
        have : ¬ k = h := fun he => hk2 (by rw [he, hh])
        rw [if_neg this]
      · rw [if_neg hh, if_neg hh, ih]

/-- The pure running-minimum scan extracted from `chooseLoop` (the bytes map
does not change the values read, only records visited servers). -/
def chooseAux (f : THostPort → Int) (b : Int) (dh : Option THostPort) (v : Int) :
    List TScanRangeLocation → Int × Option THostPort × Int
  | [] => (b, dh, v)
  | loc :: rest =>
    if f loc.server < b then chooseAux f (f loc.server) (some loc.server) loc.volumeId rest
    else chooseAux f b dh v rest

theorem chooseAux_congr (locs : List TScanRangeLocation) :
    ∀ (f g : THostPort → Int) (b : Int) (dh : Option THostPort) (v : Int),
      (∀ l ∈ locs, f l.server = g l.server) →
      chooseAux f b dh v locs = chooseAux g b dh v locs := by
  induction locs with
  | nil => intro f g b dh v _; rfl
  | cons loc rest ih =>
    intro f g b dh v hfg
    rw [chooseAux, chooseAux, hfg loc (List.mem_cons_self loc rest)]
    have hrest : ∀ l ∈ rest, f l.server = g l.server :=
      fun l hl => hfg l (List.mem_cons_of_mem loc hl)
    by_cases h1 : g loc.server < b
    · rw [if_pos h1, if_pos h1]
      exact ih _ _ _ _ _ hrest
    · rw [if_neg h1, if_neg h1]
      exact ih _ _ _ _ _ hrest

theorem chooseLoop_components (locs : List TScanRangeLocation) :
    ∀ (m : List (THostPort × Int)) (b : Int) (dh : Option THostPort) (v : Int),
      ((chooseLoop ⟨m, b, dh, v⟩ locs).minBytes, (chooseLoop ⟨m, b, dh, v⟩ locs).dataHost,
        (chooseLoop ⟨m, b, dh, v⟩ locs).volumeId) = chooseAux (alGet m) b dh v locs
      ∧ (chooseLoop ⟨m, b, dh, v⟩ locs).m = insertAllServers m locs := by
  induction locs with
  | nil => intro m b dh v; exact ⟨rfl, rfl⟩
  | cons loc rest ih =>
    intro m b dh v
    rw [chooseLoop, chooseAux, insertAllServers]
    simp only [alGet_insert]
    by_cases h1 : alGet m loc.server < b
    · rw [if_pos h1, if_pos h1]
      obtain ⟨ihc, ihm⟩ :=
        ih (alInsertIfAbsent m loc.server) (alGet m loc.server) (some loc.server) loc.volumeId
      refine ⟨?_, ihm⟩
      rw [ihc]
      exact chooseAux_congr rest _ _ _ _ _ (fun l _ => alGet_insert m loc.server l.server)
    · rw [if_neg h1, if_neg h1]
      obtain ⟨ihc, ihm⟩ := ih (alInsertIfAbsent m loc.server) b dh v
      refine ⟨?_, ihm⟩
      rw [ihc]
      exact chooseAux_congr rest _ _ _ _ _ (fun l _ => alGet_insert m loc.server l.server)

theorem firstMinLoc_eq_none (f : THostPort → Int) (locs : List TScanRangeLocation) :
    firstMinLoc f locs = none ↔ locs = [] := by
  cases locs with
  | nil => simp [firstMinLoc]
  | cons l rest =>
    simp only [firstMinLoc]
    cases firstMinLoc f rest with
    | none => simp
    | some r =>
      by_cases h : f r.server < f l.server
      · simp [h]
      · simp [h]

theorem chooseAux_none (f : THostPort → Int) (b : Int) (dh : Option THostPort) (v : Int)
    (locs : List TScanRangeLocation) (h : firstMinLoc f locs = none) :
    chooseAux f b dh v locs = (b, dh, v) := by
  rw [(firstMinLoc_eq_none f locs).mp h]
  rfl

theorem chooseAux_some (f : THostPort → Int) (locs : List TScanRangeLocation) :
    ∀ (b : Int) (dh : Option THostPort) (v : Int) (loc : TScanRangeLocation),
      firstMinLoc f locs = some loc →
      chooseAux f b dh v locs =
        if f loc.server < b then (f loc.server, some loc.server, loc.volumeId)
        else (b, dh, v) := by
  induction locs with
  | nil => intro b dh v loc h; cases h
  | cons a rest ih =>
    intro b dh v loc h
    rw [chooseAux]
    cases hr : firstMinLoc f rest with
    | none =>
      simp only [firstMinLoc, hr] at h
      injection h with h
      subst h
      have hrest : rest = [] := (firstMinLoc_eq_none f rest).mp hr
      subst hrest
      by_cases h1 : f a.server < b
      · rw [if_pos h1, if_pos h1]
        rfl
      · rw [if_neg h1, if_neg h1]
        rfl
    | some r =>
      simp only [firstMinLoc, hr] at h
      by_cases h2 : f r.server < f a.server
      · rw [if_pos h2] at h
        injection h with h
        subst h
        by_cases h1 : f a.server < b
        · rw [if_pos h1, ih _ _ _ r hr, if_pos h2, if_pos (lt_trans h2 h1)]
        · rw [if_neg h1, ih _ _ _ r hr]
      · rw [if_neg h2] at h
        injection h with h
        subst h
        by_cases h1 : f a.server < b
        · rw [if_pos h1, ih _ _ _ r hr, if_neg h2, if_pos h1]
        · rw [if_neg h1, ih _ _ _ r hr]
          have h3 : ¬ f r.server < b := by omega
          rw [if_neg h3, if_neg h1]

theorem firstMinLoc_min (f : THostPort → Int) :
    ∀ (locs : List TScanRangeLocation) (loc : TScanRangeLocation),
      firstMinLoc f locs = some loc →
      loc ∈ locs ∧ ∀ l2 ∈ locs, f loc.server ≤ f l2.server := by
  intro locs
  induction locs with
  | nil => intro loc h; cases h
  | cons a rest ih =>
    intro loc h
    cases hr : firstMinLoc f rest with
    | none =>
      simp only [firstMinLoc, hr] at h
      injection h with h
      subst h
      have hrest : rest = [] := (firstMinLoc_eq_none f rest).mp hr
      subst hrest
      exact ⟨List.mem_cons_self a [], by simp⟩
    | some r =>
      simp only [firstMinLoc, hr] at h
      obtain ⟨hrm, hrmin⟩ := ih r hr
      by_cases h2 : f r.server < f a.server
      · rw [if_pos h2] at h
        injection h with h
        subst h
        refine ⟨List.mem_cons_of_mem a hrm, fun l2 hl2 => ?_⟩
        rcases List.mem_cons.mp hl2 with hl2 | hl2
        · subst hl2; omega
        · exact hrmin l2 hl2
      · rw [if_neg h2] at h
        injection h with h
        subst h
        refine ⟨List.mem_cons_self a rest, fun l2 hl2 => ?_⟩
        rcases List.mem_cons.mp hl2 with hl2 | hl2
        · subst hl2; omega
        · have := hrmin l2 hl2
          omega

theorem csraStep_some_spec (params : FragmentExecParams) (st : AssignState)
    (r : TScanRangeLocations) (st2 : AssignState) (h : csraStep params st r = some st2) :
    ∃ loc eh, firstMinLoc (alGet st.bytes) r.locations = some loc
      ∧ execHostFor params loc.server = some eh
      ∧ st2 = ⟨alAdd (insertAllServers st.bytes r.locations) loc.server
                 (GetScanRangeLength r.scanRange),
               asgAppend st.assignment eh ⟨r.scanRange, loc.volumeId⟩⟩ := by
  obtain ⟨hc, hm⟩ := chooseLoop_components r.locations st.bytes int64Max none (-1)
  rw [csraStep] at h
  cases hfm : firstMinLoc (alGet st.bytes) r.locations with
  | none =>
    rw [chooseAux_none (alGet st.bytes) int64Max none (-1) r.locations hfm] at hc
    simp only [Prod.mk.injEq] at hc
    rw [hc.2.1] at h
    cases h
  | some loc =>
    rw [chooseAux_some (alGet st.bytes) r.locations int64Max none (-1) loc hfm] at hc
    by_cases hb : alGet st.bytes loc.server < int64Max
    · rw [if_pos hb] at hc
      simp only [Prod.mk.injEq] at hc
      obtain ⟨hmin, hdh, hv⟩ := hc
      simp only [hdh] at h
      cases hh : execHostFor params loc.server with
      | none =>
        rw [hh] at h
        cases h
      | some eh =>
        rw [hh] at h
        simp only [Option.some.injEq] at h
        refine ⟨loc, eh, rfl, hh, ?_⟩
        rw [← h, hm, hv]
    · rw [if_neg hb] at hc
      simp only [Prod.mk.injEq] at hc
      rw [hc.2.1] at h
      cases h

theorem csraStep_eq_spec (params : FragmentExecParams) (st : AssignState)
    (r : TScanRangeLocations)
    (hb : ∀ l ∈ r.locations, alGet st.bytes l.server < int64Max) :
    csraStep params st r = csraSpecStep params st r := by
  obtain ⟨hc, hm⟩ := chooseLoop_components r.locations st.bytes int64Max none (-1)
  rw [csraStep, csraSpecStep]
  cases hfm : firstMinLoc (alGet st.bytes) r.locations with
  | none =>
    rw [chooseAux_none (alGet st.bytes) int64Max none (-1) r.locations hfm] at hc
    simp only [Prod.mk.injEq] at hc
    rw [hc.2.1]
  | some loc =>
    have hmem := (firstMinLoc_min (alGet st.bytes) r.locations loc hfm).1
    have hbl : alGet st.bytes loc.server < int64Max := hb loc hmem
    rw [chooseAux_some (alGet st.bytes) r.locations int64Max none (-1) loc hfm,
      if_pos hbl] at hc
    simp only [Prod.mk.injEq] at hc
    obtain ⟨hmin, hdh, hv⟩ := hc
    rw [hdh, hm, hv]

theorem sumLens_nonneg : ∀ (locs : List TScanRangeLocations),
    (∀ r ∈ locs, 0 ≤ GetScanRangeLength r.scanRange) → 0 ≤ sumLens locs := by
  intro locs
  induction locs with
  | nil => intro _; exact le_refl 0
  | cons r rest ih =>
    intro h
    have h1 := h r (List.mem_cons_self r rest)
    have h2 := ih (fun x hx => h x (List.mem_cons_of_mem r hx))
    show 0 ≤ GetScanRangeLength r.scanRange + sumLens rest
    omega

theorem csraFold_eq_spec (params : FragmentExecParams) :
    ∀ (locs : List TScanRangeLocations) (st : AssignState),
      (∀ r ∈ locs, 0 ≤ GetScanRangeLength r.scanRange) →
      (∀ h2 : THostPort, 0 ≤ alGet st.bytes h2
        ∧ alGet st.bytes h2 + sumLens locs < int64Max) →
      csraFold params st locs = csraSpecFold params st locs := by
  intro locs
  induction locs with
  | nil => intro st _ _; rfl
  | cons r rest ih =>
    intro st hnn hbd
    have hb1 : ∀ l ∈ r.locations, alGet st.bytes l.server < int64Max := by
      intro l _
      have h1 := hbd l.server
      have h3 : 0 ≤ sumLens (r :: rest) := sumLens_nonneg _ hnn
      omega
    rw [csraFold, csraSpecFold, csraStep_eq_spec params st r hb1]
    cases hstep : csraSpecStep params st r with
    | none => rfl
    | some stm =>
      have hstep2 : csraStep params st r = some stm := by
        rw [csraStep_eq_spec params st r hb1, hstep]
      obtain ⟨loc, eh, hfm, hh, hform⟩ := csraStep_some_spec params st r stm hstep2
      have hbytes : ∀ h2 : THostPort, alGet stm.bytes h2 =
          if loc.server = h2 then alGet st.bytes h2 + GetScanRangeLength r.scanRange
          else alGet st.bytes h2 := by
        intro h2
        rw [hform]
        show alGet (alAdd (insertAllServers st.bytes r.locations) loc.server
          (GetScanRangeLength r.scanRange)) h2 = _
        rw [alGet_add]
        simp only [alGet_insertAll]
      apply ih stm (fun x hx => hnn x (List.mem_cons_of_mem r hx))
      intro h2
      have h1 := hbd h2
      have h0 := hnn r (List.mem_cons_self r rest)
      have hs : sumLens (r :: rest) = GetScanRangeLength r.scanRange + sumLens rest := rfl
      rw [hbytes h2]
      by_cases he : loc.server = h2
      · rw [if_pos he]
        exact ⟨by omega, by omega⟩
      · rw [if_neg he]
        exact ⟨by omega, by omega⟩

theorem flatten_asgAppend (a : List (THostPort × List TScanRangeParams))
    (h2 : THostPort) (p : TScanRangeParams) :
    (flattenAssignment (asgAppend a h2 p)).Perm (p :: flattenAssignment a) := by
  induction a with
  | nil => exact List.Perm.refl _
  | cons kl rest ih =>
    obtain ⟨k, l⟩ := kl
    rw [asgAppend]
    by_cases hk : k = h2
    · rw [if_pos hk]
      show ((l ++ [p]) ++ flattenAssignment rest).Perm (p :: (l ++ flattenAssignment rest))
      rw [List.append_assoc]
      exact List.perm_middle
    · rw [if_neg hk]
      show (l ++ flattenAssignment (asgAppend rest h2 p)).Perm
        (p :: (l ++ flattenAssignment rest))
      exact (List.Perm.append_left l ih).trans List.perm_middle

theorem csraFold_perm (params : FragmentExecParams) :
    ∀ (locs : List TScanRangeLocations) (st st2 : AssignState),
      csraFold params st locs = some st2 →
      ((flattenAssignment st2.assignment).map TScanRangeParams.scanRange).Perm
        ((flattenAssignment st.assignment).map TScanRangeParams.scanRange
          ++ locs.map TScanRangeLocations.scanRange) := by
  intro locs
  induction locs with
  | nil =>
    intro st st2 h
    simp only [csraFold, Option.some.injEq] at h
    subst h
    rw [List.map_nil, List.append_nil]
  | cons r rest ih =>
    intro st st2 h
    rw [csraFold] at h
    cases hstep : csraStep params st r with
    | none => rw [hstep] at h; cases h
    | some stm =>
      rw [hstep] at h
      have hperm := ih stm st2 h
      obtain ⟨loc, eh, hfm, hh, hform⟩ := csraStep_some_spec params st r stm hstep
      have hflat : ((flattenAssignment stm.assignment).map TScanRangeParams.scanRange).Perm
          (r.scanRange :: (flattenAssignment st.assignment).map TScanRangeParams.scanRange) := by
        rw [hform]
        have hmap := (flatten_asgAppend st.assignment eh
          ⟨r.scanRange, loc.volumeId⟩).map TScanRangeParams.scanRange
        simpa using hmap
      refine hperm.trans ?_
      have hap := hflat.append_right (rest.map TScanRangeLocations.scanRange)
      refine hap.trans ?_
      exact List.perm_middle.symm

/-- Claim C3: `ComputeScanRangeAssignment` computes exactly the spec's
algorithm — for each range in input order, charge the range's length (0 for
non-file splits) to the replica data host with the currently minimal assigned
bytes (first occurrence wins ties), and append the range under the execution
host given by `data_server_map` (or the sole fragment host) — and every input
range is emitted exactly once (the multiset of emitted ranges is a
permutation of the input).  The hypotheses rule out signed-int64 overflow of
the byte counters, which the source does not handle. -/
theorem ComputeScanRangeAssignment_matches_spec (params : FragmentExecParams)
    (locs : List TScanRangeLocations)
    (hnn : ∀ r ∈ locs, 0 ≤ GetScanRangeLength r.scanRange)
    (hsum : sumLens locs < int64Max) :
    ComputeScanRangeAssignment params locs = csraSpec params locs
    ∧ ∀ st, ComputeScanRangeAssignment params locs = some st →
        ((flattenAssignment st.assignment).map TScanRangeParams.scanRange).Perm
          (locs.map TScanRangeLocations.scanRange) := by
  constructor
  · refine csraFold_eq_spec params locs ⟨[], []⟩ hnn ?_
    intro h2
    constructor
    · exact le_refl 0
    · show (0 : Int) + sumLens locs < int64Max
      omega
  · intro st h
    have hp := csraFold_perm params locs ⟨[], []⟩ st h
    simpa [flattenAssignment] using hp

def hostX : THostPort := ⟨"X", "10.0.0.1", 1⟩

def hostY : THostPort := ⟨"Y", "10.0.0.2", 1⟩

/-- The spec's balancing scenario: three 100-byte ranges, each replicated on
hosts X and Y. -/
def balParams : FragmentExecParams := ⟨[hostX, hostY], [(hostX, hostX), (hostY, hostY)]⟩

def balLocs : List TScanRangeLocations :=
  [⟨⟨some ⟨"f1", 0, 100⟩⟩, [⟨hostX, 0⟩, ⟨hostY, 0⟩]⟩,
   ⟨⟨some ⟨"f2", 0, 100⟩⟩, [⟨hostX, 0⟩, ⟨hostY, 0⟩]⟩,
   ⟨⟨some ⟨"f3", 0, 100⟩⟩, [⟨hostX, 0⟩, ⟨hostY, 0⟩]⟩]

/-- Concrete instantiation of `ComputeScanRangeAssignment_matches_spec` on the
spec's balancing scenario; the resulting byte totals are {X: 200, Y: 100}. -/
theorem ComputeScanRangeAssignment_matches_spec_witness :
    ComputeScanRangeAssignment balParams balLocs = csraSpec balParams balLocs
    ∧ ((ComputeScanRangeAssignment balParams balLocs).map AssignState.bytes
        = some [(hostX, 200), (hostY, 100)]) := by
  exact ⟨(ComputeScanRangeAssignment_matches_spec balParams balLocs
    (by decide) (by decide)).1, by decide⟩

/-- Ranges not replicated on every host: two 100-byte ranges hosted only on X
and a 1-byte range hosted on X and Y. -/
def skewParams : FragmentExecParams := ⟨[hostX], []⟩

def skewLocs : List TScanRangeLocations :=
  [⟨⟨some ⟨"f1", 0, 100⟩⟩, [⟨hostX, 0⟩]⟩,
   ⟨⟨some ⟨"f2", 0, 100⟩⟩, [⟨hostX, 0⟩]⟩,
   ⟨⟨some ⟨"f3", 0, 1⟩⟩, [⟨hostX, 0⟩, ⟨hostY, 1⟩]⟩]

/-- Claim C4 counterexample: when ranges are not replicated on every data
host, the greedy assignment can only choose among a range's own replicas, and
the per-data-host byte totals become {X: 200, Y: 1}: the spread 199 exceeds
`max_range_size = 100`, refuting max − min ≤ max_range_size as stated. -/
theorem assigned_bytes_spread_exceeds_max_range :
    ((ComputeScanRangeAssignment skewParams skewLocs).map AssignState.bytes
      = some [(hostX, 200), (hostY, 1)])
    ∧ maxRangeLength skewLocs = 100
    ∧ ¬(alGet [(hostX, 200), (hostY, 1)] hostX - alGet [(hostX, 200), (hostY, 1)] hostY
        ≤ maxRangeLength skewLocs) := by
  exact ⟨by decide, by decide, by decide⟩

theorem le_maxRangeLength : ∀ (locs : List TScanRangeLocations) (r : TScanRangeLocations),
    r ∈ locs → GetScanRangeLength r.scanRange ≤ maxRangeLength locs := by
  intro locs
  induction locs with
  | nil => intro r h; simp at h
  | cons a rest ih =>
    intro r h
    have hunf : maxRangeLength (a :: rest)
        = max (GetScanRangeLength a.scanRange) (maxRangeLength rest) := rfl
    rcases List.mem_cons.mp h with h | h
    · subst h; rw [hunf]; exact le_max_left _ _
    · rw [hunf]; exact le_trans (ih r h) (le_max_right _ _)

theorem maxRangeLength_nonneg : ∀ (locs : List TScanRangeLocations),
    0 ≤ maxRangeLength locs := by
  intro locs
  induction locs with
  | nil => exact le_refl 0
  | cons a rest ih =>
    have hunf : maxRangeLength (a :: rest)
        = max (GetScanRangeLength a.scanRange) (maxRangeLength rest) := rfl
    rw [hunf]
    exact le_trans ih (le_max_right _ _)

theorem csraFold_balance (params : FragmentExecParams) (hs : List THostPort) (M : Int) :
    ∀ (locs : List TScanRangeLocations) (st st2 : AssignState),
      (∀ r ∈ locs, 0 ≤ GetScanRangeLength r.scanRange
        ∧ GetScanRangeLength r.scanRange ≤ M
        ∧ (∀ h2 ∈ hs, ∃ l ∈ r.locations, l.server = h2)
        ∧ (∀ l ∈ r.locations, l.server ∈ hs)) →
      (∀ h1 ∈ hs, ∀ h2 ∈ hs, alGet st.bytes h1 ≤ alGet st.bytes h2 + M) →
      csraFold params st locs = some st2 →
      ∀ h1 ∈ hs, ∀ h2 ∈ hs, alGet st2.bytes h1 ≤ alGet st2.bytes h2 + M := by
  intro locs
  induction locs with
  | nil =>
    intro st st2 _ hinv h
    simp only [csraFold, Option.some.injEq] at h
    subst h
    exact hinv
  | cons r rest ih =>
    intro st st2 hprops hinv h
    rw [csraFold] at h
    cases hstep : csraStep params st r with
    | none => rw [hstep] at h; cases h
    | some stm =>
      rw [hstep] at h
      obtain ⟨hr0, hrM, hrcov, hrsub⟩ := hprops r (List.mem_cons_self r rest)
      obtain ⟨loc, eh, hfm, hh, hform⟩ := csraStep_some_spec params st r stm hstep
      obtain ⟨hlocmem, hlocmin⟩ := firstMinLoc_min (alGet st.bytes) r.locations loc hfm
      have hminhs : ∀ h2 ∈ hs, alGet st.bytes loc.server ≤ alGet st.bytes h2 := by
        intro h2 hh2
        obtain ⟨l2, hl2, hl2s⟩ := hrcov h2 hh2
        have hx := hlocmin l2 hl2
        rw [hl2s] at hx
        exact hx
      have hbytes : ∀ h2 : THostPort, alGet stm.bytes h2 =
          if loc.server = h2 then alGet st.bytes h2 + GetScanRangeLength r.scanRange
          else alGet st.bytes h2 := by
        intro h2
        rw [hform]
        show alGet (alAdd (insertAllServers st.bytes r.locations) loc.server
          (GetScanRangeLength r.scanRange)) h2 = _
        rw [alGet_add]
        simp only [alGet_insertAll]
      have hinv2 : ∀ h1 ∈ hs, ∀ h2 ∈ hs, alGet stm.bytes h1 ≤ alGet stm.bytes h2 + M := by
        intro h1 hh1 h2 hh2
        rw [hbytes h1, hbytes h2]
        have hbase := hinv h1 hh1 h2 hh2
        by_cases e1 : loc.server = h1 <;> by_cases e2 : loc.server = h2
        · rw [if_pos e1, if_pos e2]; omega
        · rw [if_pos e1, if_neg e2]
          have hm2 := hminhs h2 hh2
          have he1 : alGet st.bytes loc.server = alGet st.bytes h1 := by rw [e1]
          omega
        · rw [if_neg e1, if_pos e2]; omega
        · rw [if_neg e1, if_neg e2]; exact hbase
      exact ih stm st2 (fun r2 hr2 => hprops r2 (List.mem_cons_of_mem r hr2)) hinv2 h

/-- Claim C4 (amended): when every scan range is replicated on every data host
of the host set (as in the spec's own scenario), the greedy assignment keeps
any two data hosts' byte totals within `max_range_size` of each other, hence
max(assigned_bytes) − min(assigned_bytes) ≤ max_range_size.  Without full
replication the bound fails (see the counterexample). -/
theorem assigned_bytes_balanced_of_full_replication (params : FragmentExecParams)
    (locs : List TScanRangeLocations) (hs : List THostPort)
    (hnn : ∀ r ∈ locs, 0 ≤ GetScanRangeLength r.scanRange)
    (hcov : ∀ r ∈ locs, (∀ h2 ∈ hs, ∃ l ∈ r.locations, l.server = h2)
        ∧ (∀ l ∈ r.locations, l.server ∈ hs))
    (st : AssignState) (hres : ComputeScanRangeAssignment params locs = some st) :
    ∀ h1 ∈ hs, ∀ h2 ∈ hs,
      alGet st.bytes h1 - alGet st.bytes h2 ≤ maxRangeLength locs := by
  have hM := maxRangeLength_nonneg locs
  have hbal := csraFold_balance params hs (maxRangeLength locs) locs ⟨[], []⟩ st
    (fun r hr => ⟨hnn r hr, le_maxRangeLength locs r hr, (hcov r hr).1, (hcov r hr).2⟩)
    (fun h1 _ h2 _ => by
      show alGet [] h1 ≤ alGet [] h2 + maxRangeLength locs
      simp only [alGet]
      omega) hres
  intro h1 hh1 h2 hh2
  have := hbal h1 hh1 h2 hh2
  omega

/-- Concrete instantiation of `assigned_bytes_balanced_of_full_replication`
on the spec's balancing scenario (totals {X: 200, Y: 100}, max range 100). -/
theorem assigned_bytes_balanced_witness :
    ∃ st, ComputeScanRangeAssignment balParams balLocs = some st
      ∧ alGet st.bytes hostX - alGet st.bytes hostY ≤ maxRangeLength balLocs := by
  cases hres : ComputeScanRangeAssignment balParams balLocs with
  | none =>
    have hsome : (ComputeScanRangeAssignment balParams balLocs).isSome = true := by decide
    rw [hres] at hsome
    cases hsome
  | some st =>
    refine ⟨st, rfl, ?_⟩
    exact assigned_bytes_balanced_of_full_replication balParams balLocs [hostX, hostY]
      (by decide) (by decide) st hres hostX (by decide) hostY (by decide)

end Impala
